import Mathlib

/-!
Shallow embedding of the atomic-server in-memory store (`src/lib/src/store.rs`)
and the pieces of its codec and commit pipeline that the specification
describes.  Rust `HashMap<String, _>` values are embedded as association
lists with map semantics: `mapGet` is `HashMap::get`, `mapInsert` is
`HashMap::insert` (replace the existing entry, or append a fresh one).
The association-list order stands in for the map's (unspecified) iteration
order.
-/

namespace AtomicServer

/-- `ResourceString` from `storelike.rs`: property URL → raw value string. -/
abbrev ResourceString := List (String × String)

/-- `HashMap::get`: the value bound to key `k`, if present. -/
def mapGet {α : Type} (m : List (String × α)) (k : String) : Option α :=
  match m with
  | [] => none
  | (k', v) :: rest => if k' = k then some v else mapGet rest k

/-- `HashMap::insert`: replace the binding of `k` when present, else append. -/
def mapInsert {α : Type} (m : List (String × α)) (k : String) (v : α) :
    List (String × α) :=
  match m with
  | [] => [(k, v)]
  | (k', v') :: rest =>
    if k' = k then (k, v) :: rest else (k', v') :: mapInsert rest k v

/-- `HashMap::contains_key`, for stating presence of a subject. -/
def mapHasKey {α : Type} (m : List (String × α)) (k : String) : Bool :=
  match m with
  | [] => false
  | (k', _) :: rest => if k' = k then true else mapHasKey rest k

/-- `Atom` from `atoms.rs`: a single subject / property / value fact. -/
structure Atom where
  subject : String
  property : String
  value : String
deriving DecidableEq, Repr

/-- `Commit` from the spec (§3): the signed mutation record kept in the log. -/
structure Commit where
  subject : String
  set : List (String × String)
  remove : List String
  destroy : Bool
  signer : String
  created_at : Nat
  signature : String
deriving DecidableEq, Repr

/-- `Store` from `store.rs`: the resource index plus the mutation log. -/
structure Store where
  hashmap : List (String × ResourceString)
  log : List Commit
deriving DecidableEq, Repr

namespace Store

/-- `Store::init`: the empty store. -/
def init : Store := { hashmap := [], log := [] }

/-- One iteration of the loop body of `Storelike::add_atoms` for `Store`. -/
def addAtom (st : Store) (atom : Atom) : Store :=
  match mapGet st.hashmap atom.subject with
  | some resource =>
    { st with hashmap :=
        mapInsert st.hashmap atom.subject (mapInsert resource atom.property atom.value) }
  | none =>
    { st with hashmap :=
        mapInsert st.hashmap atom.subject (mapInsert [] atom.property atom.value) }

/-- `Storelike::add_atoms` for `Store`: fold the loop over the atom vector.
The Rust function returns `AtomicResult<()>` but never errs; the embedding
returns the updated store. -/
def add_atoms (st : Store) (atoms : List Atom) : Store :=
  atoms.foldl addAtom st

/-- `Storelike::add_resource_string` for `Store`. -/
def add_resource_string (st : Store) (subject : String)
    (resource : ResourceString) : Store :=
  { st with hashmap := mapInsert st.hashmap subject resource }

/-- `Storelike::all_resources` for `Store` (a clone of the index). -/
def all_resources (st : Store) : List (String × ResourceString) :=
  st.hashmap

/-- `Storelike::get_resource_string` for `Store`. -/
def get_resource_string (st : Store) (resource_url : String) :
    Option ResourceString :=
  match mapGet st.hashmap resource_url with
  | some result => some result
  | none => none

end Store

/-- The value the store holds for a (subject, property) pair. -/
def getValue (st : Store) (subject property : String) : Option String :=
  match st.get_resource_string subject with
  | some resource => mapGet resource property
  | none => none

/-! ## Association-list map lemmas -/

theorem mapGet_mapInsert_same {α : Type} (m : List (String × α)) (k : String)
    (v : α) : mapGet (mapInsert m k v) k = some v := by
  induction m with
  | nil => simp [mapGet, mapInsert]
  | cons hd tl ih =>
    obtain ⟨k', v'⟩ := hd
    by_cases h : k' = k <;> simp [mapGet, mapInsert, h, ih]

theorem mapGet_mapInsert_other {α : Type} (m : List (String × α))
    (k k' : String) (v : α) (hne : k' ≠ k) :
    mapGet (mapInsert m k v) k' = mapGet m k' := by
  induction m with
  | nil => simp [mapGet, mapInsert, Ne.symm hne]
  | cons hd tl ih =>
    obtain ⟨k₀, v₀⟩ := hd
    by_cases h : k₀ = k
    · subst h
      simp [mapGet, mapInsert, Ne.symm hne]
    · simp only [mapInsert, if_neg h]
      by_cases h' : k₀ = k' <;> simp [mapGet, h', ih]

theorem mapHasKey_iff_mapGet {α : Type} (m : List (String × α)) (k : String) :
    mapHasKey m k = true ↔ ∃ v, mapGet m k = some v := by
  induction m with
  | nil => simp [mapHasKey, mapGet]
  | cons hd tl ih =>
    obtain ⟨k', v'⟩ := hd
    by_cases h : k' = k <;> simp [mapHasKey, mapGet, h, ih]

/-! ## AD3 codec

Modelled from the spec: the AD3 serializer and parser (`parse_ad3`,
`resource_to_ad3`) are referenced by `store.rs` but their sources are not
provided.  The model follows the spec's description of the format: one
fact per line, each line a JSON array of exactly three strings, values
escaped per JSON string rules, blank lines ignored, and any malformed
line failing the entire parse.  The escape set covers the quote, the
backslash and the newline (the characters that would break the array
syntax or the line structure); other characters stand for themselves.
`write_store_to_disk` serializes with no base URL, so placeholder
rewriting does not arise and is not modelled. -/

/-- JSON escaping of a single character. -/
def escChar (c : Char) : List Char :=
  if c = '"' then ['\\', '"']
  else if c = '\\' then ['\\', '\\']
  else if c = '\n' then ['\\', 'n']
  else [c]

/-- JSON escaping of a whole string body. -/
def escapeChars : List Char → List Char
  | [] => []
  | c :: rest => escChar c ++ escapeChars rest

/-- Inverse of `escChar` on the character after a backslash. -/
def unescChar (c : Char) : Option Char :=
  if c = '"' then some '"'
  else if c = '\\' then some '\\'
  else if c = 'n' then some '\n'
  else none

/-- Read a JSON string body up to its closing quote, undoing escapes;
the flag records whether the previous character was an unprocessed
backslash.  Returns the decoded body and the input after the quote. -/
def readStrAux : Bool → List Char → Option (List Char × List Char)
  | _, [] => none
  | true, e :: rest =>
    match unescChar e, readStrAux false rest with
    | some u, some (s, r) => some (u :: s, r)
    | _, _ => none
  | false, c :: rest =>
    if c = '"' then some ([], rest)
    else if c = '\\' then readStrAux true rest
    else
      match readStrAux false rest with
      | some (s, r) => some (c :: s, r)
      | none => none

/-- Read a JSON string body up to its closing quote, undoing escapes;
returns the decoded body and the input after the closing quote. -/
def readStr : List Char → Option (List Char × List Char) :=
  readStrAux false

/-- Consume one expected character. -/
def expectChar (c : Char) : List Char → Option (List Char)
  | [] => none
  | c' :: rest => if c' = c then some rest else none

/-- Parse one AD3 line: a JSON array of exactly three strings, with no
trailing content on the line. -/
def parseLine (l : List Char) : Option Atom := do
  let l ← expectChar '[' l
  let l ← expectChar '"' l
  let (s, l) ← readStr l
  let l ← expectChar ',' l
  let l ← expectChar '"' l
  let (p, l) ← readStr l
  let l ← expectChar ',' l
  let l ← expectChar '"' l
  let (v, l) ← readStr l
  let l ← expectChar ']' l
  match l with
  | [] => some ⟨⟨s⟩, ⟨p⟩, ⟨v⟩⟩
  | _ => none

/-- Serialize one atom as an AD3 line (no trailing newline). -/
def serializeLine (a : Atom) : List Char :=
  '[' :: '"' :: (escapeChars a.subject.data ++ '"' :: ',' :: '"' ::
    (escapeChars a.property.data ++ '"' :: ',' :: '"' ::
      (escapeChars a.value.data ++ ['"', ']'])))

/-- Split a document into lines at newline characters. -/
def splitNl : List Char → List (List Char)
  | [] => [[]]
  | c :: rest =>
    if c = '\n' then [] :: splitNl rest
    else
      match splitNl rest with
      | [] => [[c]]
      | l :: ls => (c :: l) :: ls

/-- `?`-propagating map over a list: the whole map fails as soon as one
element fails. -/
def mapOption {α β : Type} (f : α → Option β) : List α → Option (List β)
  | [] => some []
  | a :: t =>
    match f a, mapOption f t with
    | some b, some bs => some (b :: bs)
    | _, _ => none

/-- Parse an AD3 document: split into lines, skip blank lines, parse every
remaining line; any malformed line fails the whole parse. -/
def parseAd3Chars (l : List Char) : Option (List Atom) :=
  mapOption parseLine ((splitNl l).filter (fun line => !line.isEmpty))

/-- `Storelike::parse_ad3` for `Store` (modelled from the spec): parse the
whole document and bulk-apply the atoms via `add_atoms`; a malformed line
fails the entire parse, and no store is produced. -/
def Store.parse_ad3 (st : Store) (s : String) : Except String Store :=
  match parseAd3Chars s.data with
  | some atoms => .ok (st.add_atoms atoms)
  | none => .error "Parsing error: malformed ad3 line"

/-- AD3 serialization of one resource: one line per atom, each line
terminated by a newline. -/
def serializeResourceChars (subject : String) : ResourceString → List Char
  | [] => []
  | (p, v) :: rest =>
    serializeLine ⟨subject, p, v⟩ ++ '\n' :: serializeResourceChars subject rest

/-- `Storelike::resource_to_ad3` for `Store` with no base URL (modelled
from the spec), as called by `write_store_to_disk`. -/
def Store.resource_to_ad3 (st : Store) (subject : String) : Option String :=
  match st.get_resource_string subject with
  | some resource => some ⟨serializeResourceChars subject resource⟩
  | none => none

/-! ## Persistence (`write_store_to_disk`) -/

/-- A file-system effect performed by the persistence code.  The embedding
records the sequence of effects instead of performing I/O. -/
inductive FsOp where
  | createDirAll (path : String)
  | write (path : String) (content : String)
  | rename (src : String) (dst : String)
deriving DecidableEq, Repr

/-- The `file_string` accumulator of `Store::write_store_to_disk`: the
concatenation, over `all_resources`, of each resource's AD3 serialization
(the `?` on `resource_to_ad3` propagates as `Option`). -/
def fileString (st : Store) : Option String :=
  match mapOption (fun pair => st.resource_to_ad3 pair.1) st.all_resources with
  | some parts => some (String.join parts)
  | none => none

/-- `Store::write_store_to_disk`: build `file_string`, then
`create_dir_all` on the parent directory followed by a single direct
`fs::write` of the whole string to `path`. -/
def Store.write_store_to_disk (st : Store) (path parent : String) :
    Option (List FsOp) :=
  match fileString st with
  | some content => some [FsOp.createDirAll parent, FsOp.write path content]
  | none => none

/-- The spec's "write-to-temp then rename" discipline as a predicate on an
effect trace: the trace ends by writing the content to a temporary path
and renaming that temporary path onto the target. -/
def atomicWritePattern (ops : List FsOp) (path : String) : Prop :=
  ∃ earlier tmp content, tmp ≠ path ∧
    ops = earlier ++ [FsOp.write tmp content, FsOp.rename tmp path]

/-! ## Validation (`validate_store`) -/

/-- `Property` from the spec (§3): the essential fields of a schema
property resource (`get_property` resolves one from its URL). -/
structure SchemaProperty where
  subject : String
  shortname : String
  data_type : String
deriving DecidableEq, Repr

/-- `Class` from the spec (§3): the essential fields of a schema class
resource; `requires` is its list of required properties. -/
structure SchemaClass where
  subject : String
  shortname : String
  requires : List SchemaProperty
deriving DecidableEq, Repr

/-- The datatype loop of `Store::validate_store` over one resource:
resolve each property, validate its raw value against the property's
datatype, and collect the property URLs into `found_props`.
`get_property` and `Value::new` are not among the provided sources; they
are abstracted as the parameters `getProperty` and `valueNew`. -/
def checkProps (getProperty : String → Except String SchemaProperty)
    (valueNew : String → String → Except String Unit) :
    ResourceString → Except String (List String)
  | [] => .ok []
  | (prop_url, value) :: rest => do
    let property ← getProperty prop_url
    let _ ← valueNew value property.data_type
    let found ← checkProps getProperty valueNew rest
    .ok (prop_url :: found)

/-- The class loop of `validate_store`: walking classes in order and each
class's `requires` in order, the first required property whose subject is
not among `found_props`, paired with its class. -/
def firstMissing (classes : List SchemaClass) (found_props : List String) :
    Option (SchemaClass × SchemaProperty) :=
  match classes with
  | [] => none
  | c :: rest =>
    match c.requires.find? (fun rp => !found_props.contains rp.subject) with
    | some rp => some (c, rp)
    | none => firstMissing rest found_props

/-- The error message built by `validate_store` for a missing required
property (the spelling follows the source). -/
def missingPropError (shortname subject classSubject : String) : String :=
  "Missing requried property " ++ shortname ++ " in " ++ subject ++
    " because of class " ++ classSubject

/-- The body of `validate_store` for a single `(subject, resource)` entry:
validate all values, resolve the subject's classes (`get_classes_for_subject`
abstracted as `getClasses`), and fail on the first missing required
property with the source's error message. -/
def validateResource (getProperty : String → Except String SchemaProperty)
    (valueNew : String → String → Except String Unit)
    (getClasses : String → Except String (List SchemaClass))
    (subject : String) (resource : ResourceString) : Except String Unit := do
  let found_props ← checkProps getProperty valueNew resource
  let classes ← getClasses subject
  match firstMissing classes found_props with
  | some (c, rp) => .error (missingPropError rp.shortname subject c.subject)
  | none => .ok ()

/-- The outer loop of `validate_store` over the entries of
`all_resources`. -/
def validateEntries (getProperty : String → Except String SchemaProperty)
    (valueNew : String → String → Except String Unit)
    (getClasses : String → Except String (List SchemaClass)) :
    List (String × ResourceString) → Except String Unit
  | [] => .ok ()
  | (subject, resource) :: rest => do
    let _ ← validateResource getProperty valueNew getClasses subject resource
    validateEntries getProperty valueNew getClasses rest

/-- `Store::validate_store`, with the schema lookups and datatype check
abstracted as parameters (their sources are not provided). -/
def Store.validate_store (getProperty : String → Except String SchemaProperty)
    (valueNew : String → String → Except String Unit)
    (getClasses : String → Except String (List SchemaClass))
    (st : Store) : Except String Unit :=
  validateEntries getProperty valueNew getClasses st.all_resources

/-! ## Commit pipeline (`apply_commit`)

Modelled from the spec: the commit engine is not among the provided
sources.  The pipeline verifies the signature, checks authorization,
applies `set` / `remove` / `destroy` to a scratch copy of the target
resource, validates the scratch copy, and only then replaces the resource
in the index and appends the commit to the log.  Signature verification,
authorization and the validity check are abstracted as the boolean
parameters `sigOk`, `authOk` and `validOk`; the staleness (timestamp)
check is not modelled.  Failure returns the error together with the
untouched store. -/

/-- Remove a key from a map (`HashMap::remove`, keeping the rest). -/
def mapRemove {α : Type} (m : List (String × α)) (k : String) :
    List (String × α) :=
  m.filter (fun pair => !(pair.1 == k))

/-- Apply a commit's `set` map to a resource. -/
def applySet (resource : ResourceString) (set : List (String × String)) :
    ResourceString :=
  set.foldl (fun r pv => mapInsert r pv.1 pv.2) resource

/-- Apply a commit's `remove` list to a resource. -/
def applyRemove (resource : ResourceString) (remove : List String) :
    ResourceString :=
  remove.foldl (fun r k => mapRemove r k) resource

/-- `apply_commit` (modelled from the spec, §4.5): on success returns the
updated store and the target subject; on failure returns the unchanged
store and a typed error message. -/
def Store.apply_commit (sigOk : Commit → Bool) (authOk : Commit → Bool)
    (validOk : ResourceString → Bool) (st : Store) (commit : Commit) :
    Store × Except String String :=
  if !sigOk commit then
    (st, .error "AuthorizationError: invalid signature")
  else if !authOk commit then
    (st, .error "AuthorizationError: no write permission")
  else
    let current := (st.get_resource_string commit.subject).getD []
    let scratch := applyRemove (applySet current commit.set) commit.remove
    if commit.destroy then
      ({ hashmap := mapRemove st.hashmap commit.subject,
         log := st.log ++ [commit] }, .ok commit.subject)
    else if !validOk scratch then
      (st, .error "ValidationError: resulting resource is invalid")
    else
      ({ hashmap := mapInsert st.hashmap commit.subject scratch,
         log := st.log ++ [commit] }, .ok commit.subject)

/-- The last atom of a sequence carrying the given subject and property. -/
def lastMatching (atoms : List Atom) (s p : String) : Option Atom :=
  atoms.reverse.find? (fun a => a.subject == s && a.property == p)

/-! ## Store lemmas -/

theorem get_resource_string_eq_mapGet (st : Store) (u : String) :
    st.get_resource_string u = mapGet st.hashmap u := by
  cases h : mapGet st.hashmap u <;> simp [Store.get_resource_string, h]

theorem getValue_addAtom (st : Store) (a : Atom) (s p : String) :
    getValue (st.addAtom a) s p =
      if a.subject = s ∧ a.property = p then some a.value
      else getValue st s p := by
  by_cases hs : a.subject = s
  · subst hs
    unfold Store.addAtom
    cases hg : mapGet st.hashmap a.subject with
    | some r =>
      simp only [getValue, get_resource_string_eq_mapGet, hg,
        mapGet_mapInsert_same]
      by_cases hp : a.property = p
      · subst hp; simp [mapGet_mapInsert_same]
      · rw [mapGet_mapInsert_other _ _ _ _ (Ne.symm hp)]
        simp [hp]
    | none =>
      simp only [getValue, get_resource_string_eq_mapGet, hg,
        mapGet_mapInsert_same]
      by_cases hp : a.property = p
      · subst hp; simp [mapGet_mapInsert_same]
      · rw [mapGet_mapInsert_other _ _ _ _ (Ne.symm hp)]
        simp [hp, mapGet]
  · unfold Store.addAtom
    have hfalse : ¬(a.subject = s ∧ a.property = p) := fun h => hs h.1
    cases hg : mapGet st.hashmap a.subject <;>
      simp only [getValue, get_resource_string_eq_mapGet,
        mapGet_mapInsert_other _ _ _ _ (Ne.symm hs), if_neg hfalse]

theorem get_resource_string_addAtom_other (st : Store) (a : Atom) (s : String)
    (h : a.subject ≠ s) :
    (st.addAtom a).get_resource_string s = st.get_resource_string s := by
  unfold Store.addAtom
  cases hg : mapGet st.hashmap a.subject <;>
    simp [get_resource_string_eq_mapGet,
      mapGet_mapInsert_other _ _ _ _ (Ne.symm h)]

theorem getValue_add_atoms (st : Store) (atoms : List Atom) (s p : String) :
    getValue (st.add_atoms atoms) s p =
      match lastMatching atoms s p with
      | some a => some a.value
      | none => getValue st s p := by
  induction atoms using List.reverseRecOn with
  | nil => simp [Store.add_atoms, lastMatching]
  | append_singleton l a ih =>
    unfold Store.add_atoms at ih ⊢
    rw [List.foldl_append, List.foldl_cons, List.foldl_nil, getValue_addAtom]
    by_cases h : a.subject = s ∧ a.property = p
    · have hb : (a.subject == s && a.property == p) = true := by
        simp [h.1, h.2]
      simp [lastMatching, hb, h]
    · have hb : ¬((a.subject == s && a.property == p) = true) := by
        simpa using h
      rw [if_neg h]
      have hb2 : (a.subject == s && a.property == p) = false :=
        Bool.eq_false_iff.mpr hb
      simp only [lastMatching, List.reverse_append, List.reverse_singleton,
        List.singleton_append, List.find?, hb2]
      simpa [lastMatching] using ih

theorem get_resource_string_add_atoms_other (st : Store) (atoms : List Atom)
    (s : String) (h : ∀ a ∈ atoms, a.subject ≠ s) :
    (st.add_atoms atoms).get_resource_string s = st.get_resource_string s := by
  induction atoms generalizing st with
  | nil => rfl
  | cons a l ih =>
    have : (st.add_atoms (a :: l)) = ((st.addAtom a).add_atoms l) := rfl
    rw [this, ih _ (fun b hb => h b (List.mem_cons_of_mem a hb)),
      get_resource_string_addAtom_other _ _ _ (h a (List.mem_cons_self a l))]

/-! ## Claim theorems -/

/-- C1: parsing the single AD3 line
`["_:test","https://atomicdata.dev/properties/shortname","Test"]` into a
freshly initialized store succeeds, looking up subject `_:test` succeeds,
and that resource's value for the shortname property is `"Test"`. -/
theorem parse_single_line_then_get :
    ∃ st, Store.init.parse_ad3
        "[\"_:test\",\"https://atomicdata.dev/properties/shortname\",\"Test\"]" =
        Except.ok st ∧
      ∃ r, st.get_resource_string "_:test" = some r ∧
        mapGet r "https://atomicdata.dev/properties/shortname" = some "Test" := by
  refine ⟨⟨[("_:test", [("https://atomicdata.dev/properties/shortname", "Test")])],
    []⟩, ?_, ⟨[("https://atomicdata.dev/properties/shortname", "Test")], ?_, ?_⟩⟩ <;>
    rfl

/-- C2: after `add_atoms`, every (subject, property) pair maps to the value
of the last atom in the sequence with that subject and property; earlier
atoms for the same pair, and any previously stored value for it, are
overwritten (pairs no atom carries keep the prior value). -/
theorem add_atoms_last_write_wins (st : Store) (atoms : List Atom)
    (s p : String) :
    getValue (st.add_atoms atoms) s p =
      match lastMatching atoms s p with
      | some a => some a.value
      | none => getValue st s p :=
  getValue_add_atoms st atoms s p

/-- C5: resource lookup returns the stored resource exactly when the
subject is a key of the index, and returns `none` (never a default
resource) when it is absent. -/
theorem get_resource_string_found_or_none (st : Store) (u : String) :
    (∀ r, mapGet st.hashmap u = some r → st.get_resource_string u = some r) ∧
    (mapHasKey st.hashmap u = false → st.get_resource_string u = none) := by
  constructor
  · intro r h
    simp [get_resource_string_eq_mapGet, h]
  · intro h
    cases hg : mapGet st.hashmap u with
    | none => simp [get_resource_string_eq_mapGet, hg]
    | some r =>
      exact absurd ((mapHasKey_iff_mapGet _ _).mpr ⟨r, hg⟩) (by simp [h])

/-- Witness for C5 at a concrete store: subject `"a"` is present and found
with its stored resource; subject `"b"` is absent and yields `none`. -/
theorem get_resource_string_found_or_none_witness :
    (Store.mk [("a", [("p", "v")])] []).get_resource_string "a" =
        some [("p", "v")] ∧
      (Store.mk [("a", [("p", "v")])] []).get_resource_string "b" = none :=
  ⟨(get_resource_string_found_or_none (Store.mk [("a", [("p", "v")])] []) "a").1
      [("p", "v")] (by decide),
    (get_resource_string_found_or_none (Store.mk [("a", [("p", "v")])] []) "b").2
      (by decide)⟩

/-- C9: storing a resource under a subject with `add_resource_string` and
reading it back with `get_resource_string` returns exactly the inserted
resource. -/
theorem add_resource_string_then_get (st : Store) (subject : String)
    (r : ResourceString) :
    (st.add_resource_string subject r).get_resource_string subject = some r := by
  simp [Store.add_resource_string, get_resource_string_eq_mapGet,
    mapGet_mapInsert_same]

/-- C10: `add_atoms` only grows or overwrites the targeted entries: a
(subject, property) pair no input atom carries keeps its previous value, a
subject no input atom carries keeps its entire resource, and no existing
value is ever removed. -/
theorem add_atoms_frame (st : Store) (atoms : List Atom) (s p : String) :
    ((∀ a ∈ atoms, ¬(a.subject = s ∧ a.property = p)) →
       getValue (st.add_atoms atoms) s p = getValue st s p) ∧
    ((∀ a ∈ atoms, a.subject ≠ s) →
       (st.add_atoms atoms).get_resource_string s = st.get_resource_string s) ∧
    (∀ v, getValue st s p = some v →
       ∃ w, getValue (st.add_atoms atoms) s p = some w) := by
  refine ⟨?_, ?_, ?_⟩
  · intro h
    have hnone : lastMatching atoms s p = none := by
      simp only [lastMatching, List.find?_eq_none, List.mem_reverse]
      intro a ha
      simpa using h a ha
    rw [getValue_add_atoms, hnone]
  · exact get_resource_string_add_atoms_other st atoms s
  · intro v hv
    rw [getValue_add_atoms]
    cases hl : lastMatching atoms s p with
    | some a => exact ⟨a.value, rfl⟩
    | none => exact ⟨v, by rw [hv]⟩

/-- Witness for C10 at concrete inputs: adding `("s","p","9")` to a store
holding `("s", {p↦1, q↦2})` and `("t", {x↦0})` leaves the pair `(s,q)`,
the whole resource of subject `t`, and the presence of `(s,p)` intact. -/
theorem add_atoms_frame_witness :
    getValue ((Store.mk [("s", [("p", "1"), ("q", "2")]), ("t", [("x", "0")])]
        []).add_atoms [⟨"s", "p", "9"⟩]) "s" "q" =
      getValue (Store.mk [("s", [("p", "1"), ("q", "2")]), ("t", [("x", "0")])]
        []) "s" "q" ∧
    ((Store.mk [("s", [("p", "1"), ("q", "2")]), ("t", [("x", "0")])]
        []).add_atoms [⟨"s", "p", "9"⟩]).get_resource_string "t" =
      (Store.mk [("s", [("p", "1"), ("q", "2")]), ("t", [("x", "0")])]
        []).get_resource_string "t" ∧
    ∃ w, getValue ((Store.mk [("s", [("p", "1"), ("q", "2")]),
        ("t", [("x", "0")])] []).add_atoms [⟨"s", "p", "9"⟩]) "s" "p" = some w :=
  ⟨(add_atoms_frame _ [⟨"s", "p", "9"⟩] "s" "q").1 (by decide),
    (add_atoms_frame _ [⟨"s", "p", "9"⟩] "t" "x").2.1 (by decide),
    (add_atoms_frame _ [⟨"s", "p", "9"⟩] "s" "p").2.2 "1" (by decide)⟩

/-! ## Bulk-load abort, commit atomicity, persistence effects -/

theorem mapOption_eq_none_of_mem {α β : Type} (f : α → Option β) {l : List α}
    {x : α} (hx : x ∈ l) (hfail : f x = none) : mapOption f l = none := by
  induction l with
  | nil => cases hx
  | cons a t ih =>
    rcases List.mem_cons.mp hx with rfl | hmem
    · simp [mapOption, hfail]
    · cases hpa : f a <;> simp [mapOption, hpa, ih hmem]

/-- C6: bulk load aborts the whole batch on the first malformed line: if
any non-blank line of the document fails to parse, `parse_ad3` returns a
parse error and yields no store at all, so no atom of the batch (well
formed or not) is applied. -/
theorem parse_ad3_aborts_on_malformed (st : Store) (s : String)
    (line : List Char)
    (hline : line ∈ (splitNl s.data).filter (fun l => !l.isEmpty))
    (hbad : parseLine line = none) :
    st.parse_ad3 s = Except.error "Parsing error: malformed ad3 line" := by
  simp [Store.parse_ad3, parseAd3Chars,
    mapOption_eq_none_of_mem parseLine hline hbad]

/-- Witness for C6: the two-element line `["a","b"]` is malformed and makes
the parse of the whole document fail. -/
theorem parse_ad3_aborts_on_malformed_witness :
    Store.init.parse_ad3 "[\"a\",\"b\"]" =
      Except.error "Parsing error: malformed ad3 line" :=
  parse_ad3_aborts_on_malformed Store.init "[\"a\",\"b\"]"
    ("[\"a\",\"b\"]".data) (by decide) (by decide)

/-- C3: when `apply_commit` fails (signature verification, authorization,
or validation of the resulting resource), the store it returns — index and
log alike — is exactly the input store. -/
theorem apply_commit_failure_leaves_store (sigOk authOk : Commit → Bool)
    (validOk : ResourceString → Bool) (st : Store) (c : Commit) (e : String)
    (h : (Store.apply_commit sigOk authOk validOk st c).2 = Except.error e) :
    (Store.apply_commit sigOk authOk validOk st c).1 = st := by
  by_cases h1 : sigOk c
  · by_cases h2 : authOk c
    · by_cases h3 : c.destroy
      · simp [Store.apply_commit, h1, h2, h3] at h
      · by_cases h4 : validOk (applyRemove
            (applySet ((st.get_resource_string c.subject).getD []) c.set)
            c.remove)
        · simp [Store.apply_commit, h1, h2, h3, h4] at h
        · simp [Store.apply_commit, h1, h2, h3, h4]
    · simp [Store.apply_commit, h1, h2]
  · simp [Store.apply_commit, h1]

/-- Witness for C3: a commit whose signature check fails leaves the
(empty) store unchanged. -/
theorem apply_commit_failure_leaves_store_witness :
    (Store.apply_commit (fun _ => false) (fun _ => true) (fun _ => true)
      Store.init ⟨"s", [], [], false, "agent", 0, "sig"⟩).1 = Store.init :=
  apply_commit_failure_leaves_store (fun _ => false) (fun _ => true)
    (fun _ => true) Store.init ⟨"s", [], [], false, "agent", 0, "sig"⟩
    "AuthorizationError: invalid signature" rfl

theorem mapOption_eq_some_of_forall {α β : Type} (f : α → Option β)
    (l : List α) (h : ∀ x ∈ l, ∃ y, f x = some y) :
    ∃ ys, mapOption f l = some ys := by
  induction l with
  | nil => exact ⟨[], rfl⟩
  | cons a t ih =>
    obtain ⟨y, hy⟩ := h a (List.mem_cons_self a t)
    obtain ⟨ys, hys⟩ := ih (fun x hx => h x (List.mem_cons_of_mem a hx))
    exact ⟨y :: ys, by simp [mapOption, hy, hys]⟩

theorem mapGet_of_mem {α : Type} {m : List (String × α)} {k : String} {v : α}
    (h : (k, v) ∈ m) : ∃ w, mapGet m k = some w := by
  induction m with
  | nil => cases h
  | cons hd tl ih =>
    obtain ⟨k', v'⟩ := hd
    by_cases hk : k' = k
    · exact ⟨v', by simp [mapGet, hk]⟩
    · rcases List.mem_cons.mp h with heq | hmem
      · cases heq; exact absurd rfl hk
      · obtain ⟨w, hw⟩ := ih hmem
        exact ⟨w, by simp [mapGet, hk, hw]⟩

theorem fileString_isSome (st : Store) : ∃ content, fileString st = some content := by
  have h : ∀ pair ∈ st.all_resources, ∃ y, st.resource_to_ad3 pair.1 = some y := by
    intro pair hmem
    obtain ⟨w, hw⟩ := mapGet_of_mem (m := st.hashmap) (k := pair.1) (v := pair.2)
      hmem
    exact ⟨⟨serializeResourceChars pair.1 w⟩, by
      simp [Store.resource_to_ad3, get_resource_string_eq_mapGet, hw]⟩
  obtain ⟨ys, hys⟩ := mapOption_eq_some_of_forall _ st.all_resources h
  exact ⟨String.join ys, by simp [fileString, hys]⟩

theorem not_atomicWritePattern_two_ops (parent path content : String) :
    ¬ atomicWritePattern [FsOp.createDirAll parent, FsOp.write path content]
      path := by
  rintro ⟨earlier, tmp, c, hne, heq⟩
  have hlast := congrArg List.getLast? heq
  rw [show earlier ++ [FsOp.write tmp c, FsOp.rename tmp path] =
      (earlier ++ [FsOp.write tmp c]) ++ [FsOp.rename tmp path] by simp] at hlast
  rw [List.getLast?_concat] at hlast
  simp [List.getLast?] at hlast

/-- C7 (amended): `write_store_to_disk` emits exactly two effects — create
the parent directories, then one direct `fs::write` to `path` of the
concatenation of the AD3 serialization of every resource; the trace never
follows the write-to-temp-then-rename pattern. -/
theorem write_store_to_disk_direct_write (st : Store) (path parent : String) :
    ∃ content, fileString st = some content ∧
      st.write_store_to_disk path parent =
        some [FsOp.createDirAll parent, FsOp.write path content] ∧
      ¬ atomicWritePattern [FsOp.createDirAll parent, FsOp.write path content]
        path := by
  obtain ⟨c, hc⟩ := fileString_isSome st
  exact ⟨c, hc, by simp [Store.write_store_to_disk, hc],
    not_atomicWritePattern_two_ops parent path c⟩

/-- Witness for C7 (amended) at a concrete store and path. -/
theorem write_store_to_disk_direct_write_witness :
    ∃ content, fileString Store.init = some content ∧
      Store.init.write_store_to_disk "f" "d" =
        some [FsOp.createDirAll "d", FsOp.write "f" content] ∧
      ¬ atomicWritePattern [FsOp.createDirAll "d", FsOp.write "f" content]
        "f" :=
  write_store_to_disk_direct_write Store.init "f" "d"

/-- Counterexample to C7 as stated: for a concrete one-resource store the
persistence trace is a single direct write of the serialized content, and
it does not match the write-to-temp-then-rename pattern the claim
asserts. -/
theorem write_store_to_disk_not_atomic :
    (Store.mk [("a", [("p", "v")])] []).write_store_to_disk "f" "d" =
      some [FsOp.createDirAll "d", FsOp.write "f" "[\"a\",\"p\",\"v\"]\n"] ∧
    ¬ atomicWritePattern
      [FsOp.createDirAll "d", FsOp.write "f" "[\"a\",\"p\",\"v\"]\n"] "f" :=
  ⟨rfl, not_atomicWritePattern_two_ops "d" "f" "[\"a\",\"p\",\"v\"]\n"⟩

/-! ## Validation lemmas -/

theorem except_bind_ok {ε α β : Type} (a : α) (f : α → Except ε β) :
    (Except.ok a >>= f : Except ε β) = f a := rfl

theorem except_bind_error {ε α β : Type} (e : ε) (f : α → Except ε β) :
    (Except.error e >>= f : Except ε β) = Except.error e := rfl

theorem checkProps_ok_keys (getProperty : String → Except String SchemaProperty)
    (valueNew : String → String → Except String Unit) (resource : ResourceString)
    (found : List String)
    (h : checkProps getProperty valueNew resource = Except.ok found) :
    found = resource.map Prod.fst := by
  induction resource generalizing found with
  | nil =>
    simp [checkProps] at h
    simp [h.symm]
  | cons pv rest ih =>
    obtain ⟨prop_url, value⟩ := pv
    cases hgp : getProperty prop_url with
    | error e => simp [checkProps, hgp, except_bind_error] at h
    | ok property =>
      cases hvn : valueNew value property.data_type with
      | error e =>
        simp [checkProps, hgp, hvn, except_bind_ok, except_bind_error] at h
      | ok u =>
        cases hcp : checkProps getProperty valueNew rest with
        | error e =>
          simp [checkProps, hgp, hvn, hcp, except_bind_ok,
            except_bind_error] at h
        | ok f =>
          simp [checkProps, hgp, hvn, hcp, except_bind_ok] at h
          simp [h.symm, ih f hcp]

theorem firstMissing_none (classes : List SchemaClass) (found : List String)
    (h : firstMissing classes found = none) :
    ∀ c ∈ classes, ∀ rp ∈ c.requires, found.contains rp.subject = true := by
  induction classes with
  | nil => intro c hc; cases hc
  | cons c₀ rest ih =>
    intro c hc rp hrp
    cases hf : c₀.requires.find? (fun rp => !found.contains rp.subject) with
    | some rp' =>
      simp only [firstMissing, hf] at h
      exact absurd h (by simp)
    | none =>
      simp only [firstMissing, hf] at h
      rcases List.mem_cons.mp hc with rfl | hmem
      · have := List.find?_eq_none.mp hf rp hrp
        simpa using this
      · exact ih h c hmem rp hrp

theorem validateResource_ok_contains
    (getProperty : String → Except String SchemaProperty)
    (valueNew : String → String → Except String Unit)
    (getClasses : String → Except String (List SchemaClass))
    (subject : String) (resource : ResourceString)
    (classes : List SchemaClass)
    (hok : validateResource getProperty valueNew getClasses subject resource =
      Except.ok ())
    (hgc : getClasses subject = Except.ok classes) :
    ∀ c ∈ classes, ∀ rp ∈ c.requires,
      ((resource.map Prod.fst).contains rp.subject) = true := by
  cases hcp : checkProps getProperty valueNew resource with
  | error e => simp [validateResource, hcp, except_bind_error] at hok
  | ok found =>
    rw [checkProps_ok_keys _ _ _ _ hcp] at hcp
    cases hfm : firstMissing classes (resource.map Prod.fst) with
    | some pair =>
      simp [validateResource, hcp, hgc, hfm, except_bind_ok] at hok
    | none =>
      exact firstMissing_none _ _ hfm

theorem validateEntries_ok
    (getProperty : String → Except String SchemaProperty)
    (valueNew : String → String → Except String Unit)
    (getClasses : String → Except String (List SchemaClass))
    (l : List (String × ResourceString))
    (hok : validateEntries getProperty valueNew getClasses l = Except.ok ())
    (subject : String) (resource : ResourceString)
    (hmem : (subject, resource) ∈ l) :
    validateResource getProperty valueNew getClasses subject resource =
      Except.ok () := by
  induction l with
  | nil => cases hmem
  | cons entry rest ih =>
    obtain ⟨s₀, r₀⟩ := entry
    cases hv : validateResource getProperty valueNew getClasses s₀ r₀ with
    | error e => simp [validateEntries, hv, except_bind_error] at hok
    | ok u =>
      simp only [validateEntries, hv, except_bind_ok] at hok
      rcases List.mem_cons.mp hmem with heq | hmem'
      · cases heq
        cases u
        exact hv
      · exact ih hok hmem'

/-- C4: if some resource in the store declares a class one of whose
required properties is absent from the resource, `validate_store` returns
an error; moreover, when that resource heads the index, its datatype pass
succeeds, and the pair (class, required property) is the first missing one
found, the error is the source's exact message naming the missing
property's shortname, the resource's subject, and the class's subject. -/
theorem validate_store_missing_required
    (getProperty : String → Except String SchemaProperty)
    (valueNew : String → String → Except String Unit)
    (getClasses : String → Except String (List SchemaClass))
    (st : Store) (subject : String) (resource : ResourceString)
    (classes : List SchemaClass) (c : SchemaClass) (rp : SchemaProperty)
    (hmem : (subject, resource) ∈ st.hashmap)
    (hgc : getClasses subject = Except.ok classes)
    (hc : c ∈ classes) (hrp : rp ∈ c.requires)
    (hmiss : (resource.map Prod.fst).contains rp.subject = false) :
    Store.validate_store getProperty valueNew getClasses st ≠ Except.ok () ∧
    (∀ rest found, st.hashmap = (subject, resource) :: rest →
      checkProps getProperty valueNew resource = Except.ok found →
      firstMissing classes found = some (c, rp) →
      Store.validate_store getProperty valueNew getClasses st =
        Except.error (missingPropError rp.shortname subject c.subject)) := by
  constructor
  · intro hok
    have hvr := validateEntries_ok getProperty valueNew getClasses
      st.all_resources hok subject resource hmem
    have := validateResource_ok_contains getProperty valueNew getClasses
      subject resource classes hvr hgc c hc rp hrp
    rw [hmiss] at this
    cases this
  · intro rest found hhead hcp hfm
    unfold Store.validate_store Store.all_resources
    rw [hhead]
    simp [validateEntries, validateResource, hcp, hgc, hfm, except_bind_ok,
      except_bind_error]

/-- Witness for C4 at a concrete store and schema: the resource `alice`
lacks the required `name` property of class `Person`, so validation fails
with the source's message. -/
theorem validate_store_missing_required_witness :
    Store.validate_store (fun u => Except.ok ⟨u, "sn", "string"⟩)
        (fun _ _ => Except.ok ())
        (fun _ => Except.ok [⟨"https://example.com/Person", "person",
          [⟨"https://example.com/name", "name", "string"⟩]⟩])
        (Store.mk [("https://example.com/alice",
          [("https://example.com/age", "1")])] []) ≠ Except.ok () ∧
      Store.validate_store (fun u => Except.ok ⟨u, "sn", "string"⟩)
        (fun _ _ => Except.ok ())
        (fun _ => Except.ok [⟨"https://example.com/Person", "person",
          [⟨"https://example.com/name", "name", "string"⟩]⟩])
        (Store.mk [("https://example.com/alice",
          [("https://example.com/age", "1")])] []) =
        Except.error ("Missing requried property name in " ++
          "https://example.com/alice because of class https://example.com/Person") := by
  have h := validate_store_missing_required
    (fun u => Except.ok ⟨u, "sn", "string"⟩) (fun _ _ => Except.ok ())
    (fun _ => Except.ok [⟨"https://example.com/Person", "person",
      [⟨"https://example.com/name", "name", "string"⟩]⟩])
    (Store.mk [("https://example.com/alice",
      [("https://example.com/age", "1")])] [])
    "https://example.com/alice" [("https://example.com/age", "1")]
    [⟨"https://example.com/Person", "person",
      [⟨"https://example.com/name", "name", "string"⟩]⟩]
    ⟨"https://example.com/Person", "person",
      [⟨"https://example.com/name", "name", "string"⟩]⟩
    ⟨"https://example.com/name", "name", "string"⟩
    (by decide) rfl (by decide) (by decide) (by decide)
  exact ⟨h.1, h.2 [] ["https://example.com/age"] rfl rfl rfl⟩

/-! ## AD3 round-trip -/

theorem readStr_escapeChars (l rest : List Char) :
    readStr (escapeChars l ++ '"' :: rest) = some (l, rest) := by
  unfold readStr
  induction l with
  | nil => simp +decide [escapeChars, readStrAux]
  | cons c tl ih =>
    by_cases h1 : c = '"'
    · subst h1
      simp +decide [escapeChars, escChar, readStrAux, unescChar, ih]
    · by_cases h2 : c = '\\'
      · subst h2
        simp +decide [escapeChars, escChar, readStrAux, unescChar, ih]
      · by_cases h3 : c = '\n'
        · subst h3
          simp +decide [escapeChars, escChar, readStrAux, unescChar, ih]
        · simp only [escapeChars, escChar, if_neg h1, if_neg h2, if_neg h3,
            List.singleton_append, List.cons_append, readStrAux]
          simp only [List.nil_append]
          rw [ih]

theorem escChar_no_newline (c c' : Char) (h : c' ∈ escChar c) : c' ≠ '\n' := by
  unfold escChar at h
  split_ifs at h with h1 h2 h3
  · simp at h; rcases h with rfl | rfl <;> decide
  · simp at h; rcases h with rfl | rfl <;> decide
  · simp at h; rcases h with rfl | rfl <;> decide
  · simp at h; subst h; exact h3

theorem escapeChars_no_newline (l : List Char) (c : Char)
    (h : c ∈ escapeChars l) : c ≠ '\n' := by
  induction l with
  | nil => cases h
  | cons a t ih =>
    rcases List.mem_append.mp h with hmem | hmem
    · exact escChar_no_newline a c hmem
    · exact ih hmem

theorem serializeLine_no_newline (a : Atom) (c : Char)
    (h : c ∈ serializeLine a) : c ≠ '\n' := by
  unfold serializeLine at h
  rcases List.mem_cons.mp h with rfl | h
  · decide
  rcases List.mem_cons.mp h with rfl | h
  · decide
  rcases List.mem_append.mp h with h | h
  · exact escapeChars_no_newline _ c h
  rcases List.mem_cons.mp h with rfl | h
  · decide
  rcases List.mem_cons.mp h with rfl | h
  · decide
  rcases List.mem_cons.mp h with rfl | h
  · decide
  rcases List.mem_append.mp h with h | h
  · exact escapeChars_no_newline _ c h
  rcases List.mem_cons.mp h with rfl | h
  · decide
  rcases List.mem_cons.mp h with rfl | h
  · decide
  rcases List.mem_cons.mp h with rfl | h
  · decide
  rcases List.mem_append.mp h with h | h
  · exact escapeChars_no_newline _ c h
  rcases List.mem_cons.mp h with rfl | h
  · decide
  rcases List.mem_singleton.mp h with rfl
  decide

theorem splitNl_line_append (line rest : List Char)
    (h : ∀ c ∈ line, c ≠ '\n') :
    splitNl (line ++ '\n' :: rest) = line :: splitNl rest := by
  induction line with
  | nil => simp [splitNl]
  | cons c t ih =>
    have hc : c ≠ '\n' := h c (List.mem_cons_self c t)
    have ht : ∀ c' ∈ t, c' ≠ '\n' :=
      fun c' hc' => h c' (List.mem_cons_of_mem c hc')
    show splitNl (c :: (t ++ '\n' :: rest)) = _
    simp only [splitNl, if_neg hc]
    rw [ih ht]

theorem parseLine_serializeLine (a : Atom) :
    parseLine (serializeLine a) = some a := by
  obtain ⟨s, p, v⟩ := a
  obtain ⟨sd⟩ := s
  obtain ⟨pd⟩ := p
  obtain ⟨vd⟩ := v
  simp +decide [parseLine, serializeLine, expectChar, readStr_escapeChars]

/-- C8 (round-trip): parsing the AD3 serialization of any resource yields
exactly the resource's atoms — the atom list (hence the atom set) is
preserved. -/
theorem parse_serializeResource_roundtrip (subject : String)
    (resource : ResourceString) :
    parseAd3Chars (serializeResourceChars subject resource) =
      some (resource.map (fun pv => Atom.mk subject pv.1 pv.2)) := by
  induction resource with
  | nil => rfl
  | cons pv rest ih =>
    obtain ⟨p, v⟩ := pv
    unfold parseAd3Chars at ih ⊢
    rw [serializeResourceChars,
      splitNl_line_append _ _ (serializeLine_no_newline _), List.filter_cons]
    have hne : (!(serializeLine ⟨subject, p, v⟩).isEmpty) = true := by
      simp [serializeLine]
    rw [if_pos hne]
    simp only [mapOption, parseLine_serializeLine, ih, List.map_cons]

end AtomicServer
